import Mathlib

/-!
# Verification of the open-ai-router inference gateway core

A shallow embedding, in Lean 4, of the request-pipeline core of the
`neutrome-labs/open-ai-router` gateway, together with theorems settling the
frozen claims about it.

Embedded components (each definition cites the Go source it translates):

* the AIL instruction stream data model (opcodes and instructions);
* the in-memory KV store (`src/services/kv/kv.go`);
* the response-capture writer (`services.ResponseCaptureWriter`) and
  `replayCapture` (`src/plugin/tool_plugin.go`);
* the tool-plugin recursive-handler round loop (`src/plugin/tool_plugin.go`);
* the fuzzy model rewriter (`plugins/flow` `Fuzz.RewriteModel` / `tryMatch`);
* the sliding-window before-plugin (`plugins` `SlidingWindow.Before`);
* the provider-iteration pipelines (`src/modules/server/inference.go`
  `RunInferencePipeline` / `RequestPreamble`, and the AIL endpoint's
  `handleAILRequest` / `doStreamingInference`).

External collaborators (the `ail` library, HTTP transport, drivers) are
abstracted as oracle parameters; where a behaviour of the external `ail`
library matters it is modelled from the specification and marked as such.
-/

namespace AIRouter

/-! ## AIL instruction stream (data model, spec §3)

The `ail` library itself is an external collaborator; the gateway manipulates
programs as ordered instruction vectors.  We model an instruction as its
opcode plus the optional string payload (the JSON payload is modelled as a
string as well); a program is the ordered list of instructions. -/

inductive Opcode
  | SET_MODEL | SET_STREAM | RESP_ID | RESP_MODEL | RESP_DONE
  | DEF_START | DEF_NAME | DEF_DESC | DEF_SCHEMA | DEF_END
  | MSG_START | MSG_END
  | ROLE_SYS | ROLE_USR | ROLE_AST | ROLE_TOOL
  | TXT_CHUNK | THINK_START | THINK_CHUNK | THINK_END
  | CALL_START | CALL_NAME | CALL_ARGS | CALL_END
  | RESULT_START | RESULT_DATA | RESULT_END
  | STREAM_START | STREAM_DELTA | STREAM_THINK_DELTA | STREAM_TOOL_DELTA
deriving DecidableEq, Repr

structure Instruction where
  op : Opcode
  str : String := ""
  json : String := ""
deriving DecidableEq, Repr

/-- A program is the ordered instruction vector (`ail.Program.Code`). -/
abbrev Program := List Instruction

/-! ## In-memory KV store — `src/services/kv/kv.go`

`memEntry` carries the value and the expiry instant; the Go zero `time.Time`
(no expiry) is `none`.  Time instants and durations are modelled as `Nat`
resp. `Int` (Go `time.Duration` is a signed integer). -/

structure MemEntry where
  value : String
  expiresAt : Option Nat
deriving DecidableEq, Repr

/-- Lookup in the association-list embedding of the Go map `map[string]memEntry`. -/
def mapGet : List (String × MemEntry) → String → Option MemEntry
  | [], _ => none
  | (k, e) :: rest, key => if k = key then some e else mapGet rest key

/-- `m.data[key] = e` on the association-list embedding of the Go map. -/
def mapPut : List (String × MemEntry) → String → MemEntry → List (String × MemEntry)
  | [], key, e => [(key, e)]
  | (k, e') :: rest, key, e =>
    if k = key then (k, e) :: rest else (k, e') :: mapPut rest key e

/-- `delete(m.data, key)` on the association-list embedding of the Go map. -/
def mapDel : List (String × MemEntry) → String → List (String × MemEntry)
  | [], _ => []
  | (k, e') :: rest, key =>
    if k = key then mapDel rest key else (k, e') :: mapDel rest key

/-- `MemoryStore` — `kv.go` lines 77-94: data map, insertion-order list,
capacity, default TTL. -/
structure MemoryStore where
  data : List (String × MemEntry)
  order : List String
  maxItems : Nat
  defaultTTL : Int
deriving DecidableEq, Repr

/-- `NewMemoryStore` — `kv.go` lines 87-94. -/
def NewMemoryStore (maxItems : Nat) (defaultTTL : Int) : MemoryStore :=
  { data := [], order := [], maxItems := maxItems, defaultTTL := defaultTTL }

/-- `MemoryStore.Get` — `kv.go` lines 96-107.  `none` models `ErrNotFound`.
`time.Now().After(e.expiresAt)` is the strict comparison `t < now`. -/
def MemoryStore.get (m : MemoryStore) (now : Nat) (key : String) : Option String :=
  match mapGet m.data key with
  | none => none
  | some e =>
    match e.expiresAt with
    | some t => if t < now then none else some e.value
    | none => some e.value

/-- The effective TTL computed at the top of `MemoryStore.Set`
(`if ttl == 0 { ttl = m.defaultTTL }`). -/
def effTTL (m : MemoryStore) (ttl : Int) : Int :=
  if ttl = 0 then m.defaultTTL else ttl

/-- The expiry instant computed in `MemoryStore.Set`
(`if ttl > 0 { exp = time.Now().Add(ttl) }`, zero `time.Time` otherwise). -/
def expiryOf (now : Nat) (ttl : Int) : Option Nat :=
  if ttl > 0 then some (now + ttl.toNat) else none

/-- `MemoryStore.Set` — `kv.go` lines 109-130.  When the key is absent and
`len(m.order) >= m.maxItems`, the head of the order list is popped and
deleted from the map before the new key is appended.  (When `order` is empty
that Go indexing `m.order[0]` would panic — only reachable with
`maxItems = 0`; the model leaves the store unevicted there.) -/
def MemoryStore.set (m : MemoryStore) (now : Nat) (key value : String) (ttl : Int) :
    MemoryStore :=
  let exp := expiryOf now (effTTL m ttl)
  if (mapGet m.data key).isSome then
    { m with data := mapPut m.data key ⟨value, exp⟩ }
  else
    let (order, data) :=
      if m.order.length ≥ m.maxItems then
        match m.order with
        | oldest :: rest => (rest, mapDel m.data oldest)
        | [] => (m.order, m.data)
      else (m.order, m.data)
    { m with data := mapPut data key ⟨value, exp⟩, order := order ++ [key] }

/-- `MemoryStore.Delete` — `kv.go` lines 132-138: removes the key from the
map only; the insertion-order list is left untouched (lazy removal). -/
def MemoryStore.delete (m : MemoryStore) (key : String) : MemoryStore :=
  { m with data := mapDel m.data key }

/-! ## Response capture writer — `services.ResponseCaptureWriter`
(unnamed source, `ResponseCaptureWriter`) and `replayCapture`
(`src/plugin/tool_plugin.go` lines 213-220)

The inner pipeline drives the capture writer through the
`http.ResponseWriter` interface: body writes, header mutations, an optional
status write and flushes.  We model that interaction as a list of operations
and fold them through the capture writer's method implementations. -/

/-- One call the inner pipeline makes on a response writer. -/
inductive WriterOp
  | write (data : List UInt8)
  | writeHeader (status : Int)
  | addHeader (k v : String)
  | flush
deriving DecidableEq, Repr

/-- `ResponseCaptureWriter` state: body bytes, headers, status code. -/
structure Capture where
  Response : List UInt8
  Headers : List (String × String)
  StatusCode : Int
deriving DecidableEq, Repr

/-- The zero `ResponseCaptureWriter` (`&services.ResponseCaptureWriter{}`). -/
def Capture.empty : Capture := { Response := [], Headers := [], StatusCode := 0 }

/-- The capture writer's method implementations:
`Write` appends to `Response`, `WriteHeader` stores the status code,
`Header().Add` records a header, `Flush` is a no-op. -/
def captureStep (c : Capture) : WriterOp → Capture
  | .write data => { c with Response := c.Response ++ data }
  | .writeHeader status => { c with StatusCode := status }
  | .addHeader k v => { c with Headers := c.Headers ++ [(k, v)] }
  | .flush => c

/-- Run a sequence of writer operations against a fresh capture writer. -/
def runCapture (ops : List WriterOp) : Capture :=
  ops.foldl captureStep Capture.empty

/-- The real (transport) response writer as observed by the client:
`status = none` means no explicit `WriteHeader` happened (the client sees
the transport's default status). -/
structure RealWriter where
  body : List UInt8
  headers : List (String × String)
  status : Option Int
deriving DecidableEq, Repr

/-- `replayCapture` — `tool_plugin.go` lines 213-220: copies every captured
header onto the real writer (`w.Header().Add`), then writes the captured
body (`w.Write(capture.Response)`).  The captured `StatusCode` is never
forwarded. -/
def replayCapture (capture : Capture) (w : RealWriter) : RealWriter :=
  { w with
    headers := w.headers ++ capture.Headers
    body := w.body ++ capture.Response }

/-- The bytes the inner pipeline wrote through `Write` calls, in order
(the payloads of the `write` operations, concatenated). -/
def writtenBytes (ops : List WriterOp) : List UInt8 :=
  (ops.filterMap fun op => match op with | .write data => some data | _ => none).flatten

/-! ## Tool-plugin base — `src/plugin/tool_plugin.go` `RecursiveHandler`
(lines 99-210)

The inner pipeline (`invoker.InvokeHandler` + `ParseCapturedResponse` +
`dispatchCalls`) is an external effect from the handler's point of view; we
abstract it as an oracle mapping the invocation number to what that round
produced.  `nHandled` is the number of in-router tool calls `dispatchCalls`
matched in that round's parsed response. -/

/-- What one inner-pipeline invocation produced. -/
structure RoundOutcome where
  /-- `invoker.InvokeHandler` returned a non-nil error. -/
  invokeErr : Option String
  /-- The capture writer's state after the invocation. -/
  capture : Capture
  /-- `invoker.ParseCapturedResponse` succeeded. -/
  parseOk : Bool
  /-- Number of in-router tool calls dispatched from the parsed response. -/
  nHandled : Nat
deriving Repr

/-- The observable result of `ToolPlugin.RecursiveHandler`: the returned
`(handled, err)` pair, the number of `InvokeHandler` invocations performed,
and the capture replayed to the real writer (if any). -/
structure RHResult where
  handled : Bool
  err : Option String
  invocations : Nat
  replayed : Option Capture
deriving Repr

/-- The tool-call dispatch loop — `tool_plugin.go` lines 172-209:
`for round := 1; round < maxRounds; round++`.  `round` counts the
invocations already performed (the pre-loop round was invocation 1, with
oracle index 0); iteration `round` performs invocation `round + 1` with
oracle index `round`.  On loop exhaustion the last captured response is
replayed. -/
def toolLoop (oracle : Nat → RoundOutcome) (maxRounds : Nat) :
    Nat → Capture → RHResult
  | round, lastCapture =>
    if _h : round < maxRounds then
      let o := oracle round
      match o.invokeErr with
      | some e => { handled := true, err := some e, invocations := round + 1, replayed := none }
      | none =>
        if !o.parseOk then
          { handled := true, err := none, invocations := round + 1, replayed := some o.capture }
        else if o.nHandled = 0 then
          { handled := true, err := none, invocations := round + 1, replayed := some o.capture }
        else
          toolLoop oracle maxRounds (round + 1) o.capture
    else
      { handled := true, err := none, invocations := round, replayed := some lastCapture }
termination_by round => maxRounds - round

/-- `ToolPlugin.RecursiveHandler` — `tool_plugin.go` lines 99-210.
`guardSet` is whether the per-plugin context sentinel (`toolRecursionGuard`)
is present; `maxRoundsField` is the `MaxRounds` struct field (an `int`,
defaulted to 10 when non-positive). -/
def recursiveHandler (guardSet : Bool) (maxRoundsField : Int)
    (oracle : Nat → RoundOutcome) : RHResult :=
  if guardSet then
    { handled := false, err := none, invocations := 0, replayed := none }
  else
    let maxRounds := if maxRoundsField ≤ 0 then 10 else maxRoundsField.toNat
    let o := oracle 0
    match o.invokeErr with
    | some _ => { handled := false, err := none, invocations := 1, replayed := none }
    | none =>
      if !o.parseOk then
        { handled := true, err := none, invocations := 1, replayed := some o.capture }
      else if o.nHandled = 0 then
        { handled := true, err := none, invocations := 1, replayed := some o.capture }
      else
        toolLoop oracle maxRounds 1 o.capture

/-! ## Streaming serve loop — AIL endpoint `doStreamingInference`
(unnamed source, lines 322-363) and, with the same chunk/`StreamEnd`
structure, `serveChatCompletionsStream`
(`src/modules/server/chat_completions.go` lines 133-244)

`chain.RunAfterChunk` (chat `chain.go` lines 67-80) threads the chunk
through every `StreamChunkPlugin`; we keep it as the fold it is, over an
abstract plugin list.  `ail.NewStreamAssembler` lives in the external `ail`
library. -/

/-- One item received from the driver channel
(`drivers.InferenceStreamChunk`). -/
structure StreamItem where
  Data : Program
  RuntimeError : Option String
deriving DecidableEq, Repr

/-- `PluginChain.RunAfterChunk` — `chain.go` lines 67-80: threads the chunk
through every chunk plugin in chain order; the first error aborts.  A plugin
receives and may return a nil program (modelled as `none`). -/
def runAfterChunk (plugins : List (Option Program → Except String (Option Program)))
    (chunk : Option Program) : Except String (Option Program) :=
  match plugins with
  | [] => .ok chunk
  | pl :: rest =>
    match pl chunk with
    | .error e => .error e
    | .ok next => runAfterChunk rest next

/-- Modelled from the spec: `ail.StreamAssembler` (external `ail` library,
absent from this repository's source): "Assemble all chunk programs into a
single program (by appending)" — `Push` appends a chunk program, `Program`
returns the assembly. -/
structure StreamAssembler where
  acc : Program
deriving DecidableEq, Repr

def StreamAssembler.push (a : StreamAssembler) (chunk : Program) : StreamAssembler :=
  ⟨a.acc ++ chunk⟩

def StreamAssembler.program (a : StreamAssembler) : Program := a.acc

/-- What a streaming run did: whether/with what `chain.RunStreamEnd` was
invoked, and the value the function returned. -/
structure StreamRunResult where
  /-- `some arg` iff `RunStreamEnd` was called, with `arg` the program it
  received (the Go call passes a nillable `*ail.Program`). -/
  streamEndArg : Option (Option Program)
  /-- The `(resProg, err)` result of `doStreamingInference`. -/
  result : Except String Program
deriving Repr

/-- The driver-channel drain loop of `doStreamingInference` (AIL endpoint,
lines 339-362): on a runtime error run Error plugins and return (no
`RunStreamEnd`); on an after-chunk plugin error skip the chunk; otherwise
remember the chunk as `lastChunk` and `asm.Push` it.  After the channel
closes, `RunStreamEnd` receives `lastChunk` and the assembled program is
returned. -/
def doStreamingInferenceLoop
    (chunkPlugins : List (Option Program → Except String (Option Program))) :
    List StreamItem → StreamAssembler → Option Program → StreamRunResult
  | [], asm, lastChunk =>
    { streamEndArg := some lastChunk, result := .ok asm.program }
  | item :: rest, asm, lastChunk =>
    match item.RuntimeError with
    | some e => { streamEndArg := none, result := .error e }
    | none =>
      match runAfterChunk chunkPlugins (some item.Data) with
      | .error _ => doStreamingInferenceLoop chunkPlugins rest asm lastChunk
      | .ok chunkProg =>
        match chunkProg with
        | some cp => doStreamingInferenceLoop chunkPlugins rest (asm.push cp) (some cp)
        | none => doStreamingInferenceLoop chunkPlugins rest asm lastChunk

/-- `doStreamingInference` after a successful `DoInferenceStream` start:
drain the stream with a fresh assembler and no `lastChunk`. -/
def doStreamingInference
    (chunkPlugins : List (Option Program → Except String (Option Program)))
    (stream : List StreamItem) : StreamRunResult :=
  doStreamingInferenceLoop chunkPlugins stream ⟨[]⟩ none

/-- The chunk programs that survived the after-chunk plugins, in arrival
order (stated from the claim; used to express the intended `StreamEnd`
argument). -/
def survivingChunks
    (chunkPlugins : List (Option Program → Except String (Option Program)))
    (stream : List StreamItem) : List Program :=
  stream.filterMap fun item =>
    match item.RuntimeError with
    | some _ => none
    | none =>
      match runAfterChunk chunkPlugins (some item.Data) with
      | .error _ => none
      | .ok chunkProg => chunkProg

/-! ## Provider descriptor and exports filter — `services.ProviderService`
(unnamed source, `IsModelExported`, lines 87-95) -/

/-- The provider fields the pipeline consults: `Private`, `ExportedModels`
(a Go `map[string]bool`, modelled as an association list with default
`false`), and whether `Commands["inference"]` holds an `InferenceCommand`. -/
structure ProviderCfg where
  Private : Bool
  ExportedModels : List (String × Bool)
  hasInference : Bool
deriving DecidableEq, Repr

/-- Go `map[string]bool` read: the stored value, `false` when absent. -/
def lookupBoolMap : List (String × Bool) → String → Bool
  | [], _ => false
  | (k, v) :: rest, key => if k = key then v else lookupBoolMap rest key

/-- `ProviderService.IsModelExported`: `false` when private, `true` when the
exports map is empty, otherwise membership (`p.ExportedModels[model]`). -/
def IsModelExported (p : ProviderCfg) (model : String) : Bool :=
  if p.Private then false
  else if p.ExportedModels.length = 0 then true
  else lookupBoolMap p.ExportedModels model

/-! ## Shared pipeline — `src/modules/server/inference.go`
`RunInferencePipeline` (lines 50-173) and `RequestPreamble` (lines 178-226)

The per-provider effects (`chain.RunBefore`, the module handler's
`ServeStreaming`/`ServeNonStreaming`) are oracles keyed by provider name:
`runBefore name = some e` models a before-plugin error `e`, `serve name =
some e` a serve error.  Response-header writes and logging are effects no
claim mentions and are omitted. -/

/-- How `RunInferencePipeline` ends, as observed by the caller/client. -/
inductive PipelineOutcome
  | served (provider : String)
  | errored (e : String)
  /-- `w.WriteHeader(404)` followed by the structured JSON error body. -/
  | wroteStatus (status : Nat) (body : List (String × String))
  | noWrite
deriving DecidableEq, Repr

/-- The JSON object written on the model-not-found path —
`inference.go` lines 161-168. -/
def modelNotFoundBody (model : String) : List (String × String) :=
  [("message", "The model `" ++ model ++ "` does not exist or you do not have access to it."),
   ("type", "invalid_request_error"),
   ("param", "null"),
   ("code", "model_not_found")]

/-- The provider loop of `RunInferencePipeline` — `inference.go` lines
70-172 — carrying the `displayErr` (first remembered error) and
`modelNotExported` accumulators.  After the loop: a remembered error is
returned; else, if some candidate was skipped by the exports gate, the
structured 404 body is written; else nothing is written. -/
def runInferencePipelineLoop (cfgs : String → Option ProviderCfg)
    (runBefore : String → Option String) (serve : String → Option String)
    (bypassExports : Bool) (model : String) :
    List String → Option String → Bool → PipelineOutcome
  | [], displayErr, modelNotExported =>
    match displayErr with
    | some e => .errored e
    | none =>
      if modelNotExported then .wroteStatus 404 (modelNotFoundBody model)
      else .noWrite
  | name :: rest, displayErr, modelNotExported =>
    match cfgs name with
    | none => runInferencePipelineLoop cfgs runBefore serve bypassExports model
        rest displayErr modelNotExported
    | some p =>
      if !bypassExports && !IsModelExported p model then
        runInferencePipelineLoop cfgs runBefore serve bypassExports model
          rest displayErr true
      else if !p.hasInference then
        runInferencePipelineLoop cfgs runBefore serve bypassExports model
          rest displayErr modelNotExported
      else
        match runBefore name with
        | some e =>
          runInferencePipelineLoop cfgs runBefore serve bypassExports model
            rest (if displayErr = none then some e else displayErr) modelNotExported
        | none =>
          match serve name with
          | some e =>
            runInferencePipelineLoop cfgs runBefore serve bypassExports model
              rest (if displayErr = none then some e else displayErr) modelNotExported
          | none => .served name

/-- `RunInferencePipeline` — `inference.go` lines 50-173 — over the resolved
provider order, with `displayErr = nil` and `modelNotExported = false`. -/
def RunInferencePipeline (cfgs : String → Option ProviderCfg)
    (runBefore : String → Option String) (serve : String → Option String)
    (bypassExports : Bool) (model : String) (providers : List String) :
    PipelineOutcome :=
  runInferencePipelineLoop cfgs runBefore serve bypassExports model providers none false

/-- The errors the pipeline loop records, in iteration order (assuming no
earlier candidate serves successfully; derived bookkeeping for the
theorems). -/
def pipelineRecordedErrors (cfgs : String → Option ProviderCfg)
    (runBefore : String → Option String) (serve : String → Option String)
    (bypassExports : Bool) (model : String) (providers : List String) :
    List String :=
  providers.filterMap fun name =>
    match cfgs name with
    | none => none
    | some p =>
      if !bypassExports && !IsModelExported p model then none
      else if !p.hasInference then none
      else
        match runBefore name with
        | some e => some e
        | none => serve name

/-- Whether the loop iteration for `name` reaches a successful serve
(the `return nil` at `inference.go` line 148). -/
def candidateServes (cfgs : String → Option ProviderCfg)
    (runBefore : String → Option String) (serve : String → Option String)
    (bypassExports : Bool) (model : String) (name : String) : Bool :=
  match cfgs name with
  | none => false
  | some p =>
    if !bypassExports && !IsModelExported p model then false
    else if !p.hasInference then false
    else
      match runBefore name with
      | some _ => false
      | none => (serve name).isNone

/-- Whether the iteration for `name` trips the exports gate
(`modelNotExported = true` at `inference.go` line 86). -/
def candidateNotExported (cfgs : String → Option ProviderCfg)
    (bypassExports : Bool) (model : String) (name : String) : Bool :=
  match cfgs name with
  | none => false
  | some p => !bypassExports && !IsModelExported p model

/-! ### `RequestPreamble` — the model-rewrite loop (lines 191-221) -/

/-- A `ModelRewritePlugin` instance in a resolved chain: its `Name()` and
its pure `RewriteModel`. -/
structure RewritePlug where
  name : String
  rewrite : String → String × Bool

/-- `PluginChain.RunModelRewrite` — `chain.go` lines 116-129: first matching
rewrite wins, returning the rewritten model and the rewriter's name;
otherwise the model and `""`.  (Chain members without the `ModelRewrite`
capability never match; the list holds the capable ones.) -/
def runModelRewrite : List RewritePlug → String → String × String
  | [], model => (model, "")
  | pl :: rest, model =>
    let (rewritten, matched) := pl.rewrite model
    if matched then (rewritten, pl.name) else runModelRewrite rest model

/-- `strings.HasPrefix(rewriter, "virtual:")` on the underlying characters. -/
def startsWithVirtual (s : String) : Bool :=
  "virtual:".data.isPrefixOf s.data

/-- The alias-resolution loop of `RequestPreamble` — `inference.go` lines
194-214: up to `maxRewriteDepth = 10` iterations, each re-resolving the
chain for the current model and applying `RunModelRewrite`; a rewrite by a
plugin named `virtual:*` marks `virtualResolved`.  Returns the final model
and the `virtualResolved` flag (which becomes the exports-bypass context
value, lines 219-221). -/
def requestPreambleLoop (resolve : String → List RewritePlug) :
    Nat → String → Bool → String × Bool
  | 0, model, virtualResolved => (model, virtualResolved)
  | fuel + 1, model, virtualResolved =>
    let chain := resolve model
    let (rewritten, rewriter) := runModelRewrite chain model
    if rewritten ≠ model then
      requestPreambleLoop resolve fuel rewritten
        (virtualResolved || startsWithVirtual rewriter)
    else (model, virtualResolved)

/-- `RequestPreamble`'s rewrite phase: `maxRewriteDepth = 10`, starting with
`virtualResolved = false`. -/
def RequestPreamble (resolve : String → List RewritePlug) (model : String) :
    String × Bool :=
  requestPreambleLoop resolve 10 model false

/-! ## AIL endpoint provider loop — `handleAILRequest`
(unnamed source, lines 195-294)

Unlike `RunInferencePipeline` this loop has no exports gate and remembers
the *last* error (`lastErr = err` on every failure). -/

/-- The `(resProg, err)` outcome of `handleAILRequest`'s provider loop. -/
inductive AILOutcome
  | ok (resProg : Program)
  | err (e : String)
  | noProvider
deriving DecidableEq, Repr

/-- The provider loop of `handleAILRequest` — lines 240-293.  `serve`
abstracts `doStreamingInference`/`doNonStreamingInference` for the
candidate. -/
def handleAILRequestLoop (cfgs : String → Option ProviderCfg)
    (runBefore : String → Option String) (serve : String → Except String Program) :
    List String → Option String → AILOutcome
  | [], lastErr =>
    match lastErr with
    | some e => .err e
    | none => .noProvider
  | name :: rest, lastErr =>
    match cfgs name with
    | none => handleAILRequestLoop cfgs runBefore serve rest lastErr
    | some p =>
      if !p.hasInference then handleAILRequestLoop cfgs runBefore serve rest lastErr
      else
        match runBefore name with
        | some e => handleAILRequestLoop cfgs runBefore serve rest (some e)
        | none =>
          match serve name with
          | .error e => handleAILRequestLoop cfgs runBefore serve rest (some e)
          | .ok resProg => .ok resProg

/-- `handleAILRequest`'s provider iteration with `lastErr = nil`. -/
def handleAILRequest (cfgs : String → Option ProviderCfg)
    (runBefore : String → Option String) (serve : String → Except String Program)
    (providers : List String) : AILOutcome :=
  handleAILRequestLoop cfgs runBefore serve providers none

/-- The errors the AIL loop records, in iteration order (assuming no earlier
candidate serves; derived bookkeeping for the theorems). -/
def ailRecordedErrors (cfgs : String → Option ProviderCfg)
    (runBefore : String → Option String) (serve : String → Except String Program)
    (providers : List String) : List String :=
  providers.filterMap fun name =>
    match cfgs name with
    | none => none
    | some p =>
      if !p.hasInference then none
      else
        match runBefore name with
        | some e => some e
        | none =>
          match serve name with
          | .error e => some e
          | .ok _ => none

/-- Whether the AIL loop iteration for `name` serves successfully. -/
def ailCandidateServes (cfgs : String → Option ProviderCfg)
    (runBefore : String → Option String) (serve : String → Except String Program)
    (name : String) : Bool :=
  match cfgs name with
  | none => false
  | some p =>
    if !p.hasInference then false
    else
      match runBefore name with
      | some _ => false
      | none =>
        match serve name with
        | .error _ => false
        | .ok _ => true

/-! ## Fuzzy model matcher — `flow.Fuzz` (unnamed source,
`RewriteModel` lines 268-295, `tryMatch` lines 299-316, `getModels`
lines 319-354)

Model names are handled as character lists (the Go code indexes bytes;
all separators involved are ASCII, where byte and character positions
coincide).  `getModels`'s lazily-populated cache of `list_models` results is
modelled as the per-provider id list itself: provider names are unique, and
a provider whose listing is unavailable simply has the empty list (the Go
code returns `nil` there). -/

/-- `strings.IndexByte` (single ASCII byte): index of the first occurrence. -/
def indexOfChar (c : Char) : List Char → Option Nat
  | [] => none
  | x :: rest => if x = c then some 0 else (indexOfChar c rest).map (· + 1)

/-- `strings.ToLower` (character-wise). -/
def toLowerStr (s : List Char) : List Char := s.map Char.toLower

/-- `strings.Contains(s, pat)`. -/
def containsSub (s pat : List Char) : Bool :=
  if pat.isPrefixOf s then true
  else
    match s with
    | [] => false
    | _ :: rest => containsSub rest pat

/-- What the waterfall iterates: `ProviderLister()` entries, each with its
(cached) `list_models` id list. -/
structure FuzzProvider where
  Name : List Char
  models : List (List Char)
deriving Repr

/-- `Fuzz.getModels` applied through `tryMatch`: the id list of the named
provider, empty when the provider is unknown or unlistable. -/
def getModels (providers : List FuzzProvider) (name : List Char) : List (List Char) :=
  match providers.find? fun p => p.Name == name with
  | some p => p.models
  | none => []

/-- `Fuzz.tryMatch` — first loop: an id exactly equal to the partial means
*no rewrite* (`("", false)`, modelled `none`); second loop: the first id
containing the partial as a substring. -/
def tryMatch (models : List (List Char)) (base : List Char) : Option (List Char) :=
  if models.any fun m => m == base then none
  else models.find? fun m => containsSub m base

/-- The provider waterfall of `Fuzz.RewriteModel` (lines 289-294): the first
provider whose `tryMatch` succeeds wins; its name is prepended and the
plugin suffix re-attached.  (`tryMatch(p.Name, base)` resolves `p`'s own id
list since provider names are unique.) -/
def fuzzWaterfall (providers : List FuzzProvider) (model base suffix : List Char) :
    List Char × Bool :=
  match providers with
  | [] => (model, false)
  | p :: rest =>
    match tryMatch p.models base with
    | some matched => (p.Name ++ '/' :: (matched ++ suffix), true)
    | none => fuzzWaterfall rest model base suffix

/-- `Fuzz.RewriteModel` — lines 268-295: split off the `+plugins` suffix at
the first `'+'`; a `provider/` prefix (lowercased) scopes the match to that
provider, otherwise waterfall over all providers. -/
def rewriteModel (providers : List FuzzProvider) (model : List Char) :
    List Char × Bool :=
  let (base, suffix) :=
    match indexOfChar '+' model with
    | some i => (model.take i, model.drop i)
    | none => (model, ([] : List Char))
  match indexOfChar '/' base with
  | some i =>
    let provider := toLowerStr (base.take i)
    let basePart := base.drop (i + 1)
    match tryMatch (getModels providers provider) basePart with
    | some matched => (provider ++ '/' :: (matched ++ suffix), true)
    | none => (model, false)
  | none => fuzzWaterfall providers model base suffix

/-! ## Sliding-window plugin — `plugins.SlidingWindow.Before`
(unnamed source, lines 27-96: the span-scanning revision)

The claim supplies `keepEnd`/`keepStart` directly, so the `params` parsing
(lines 28-39) is not embedded.  Step 1 scans `prog.Code` for
`MSG_START..MSG_END` spans; steps 2-3 mark the message indices to keep and
the instruction indices to drop; step 4 rebuilds the program from the
non-dropped instructions. -/

/-- The inner `for j := i; ...` scan of step 1: the index of the first
`MSG_END` at position `≥ i`. -/
def findMsgEnd (code : List Instruction) (i : Nat) : Option Nat :=
  ((code.drop i).findIdx? fun ins => ins.op == .MSG_END).map (i + ·)

/-- Step 1 — the outer scan (lines 47-57): at a `MSG_START`, record the span
up to the matching `MSG_END` and resume after it (`i = j`); without a
matching `MSG_END` (or at a non-`MSG_START`) just advance. -/
def findSpans (code : List Instruction) (i : Nat) : List (Nat × Nat) :=
  if h : i < code.length then
    if (code.get ⟨i, h⟩).op = .MSG_START then
      match (code.drop i).findIdx? fun ins => ins.op == .MSG_END with
      | some off => (i, i + off) :: findSpans code (i + off + 1)
      | none => findSpans code (i + 1)
    else findSpans code (i + 1)
  else []
termination_by code.length - i
decreasing_by
  · omega
  · omega
  · omega

/-- Step 2 (lines 66-74): message index `mi` is kept when it lies in the
first `keepStart` or the last `keepEnd` messages.  (The Go loop guard
`i >= 0` corresponds to truncated subtraction on `Nat`.) -/
def slwinKeep (keepStart keepEnd total : Nat) (mi : Nat) : Bool :=
  (decide (mi < keepStart) && decide (mi < total)) ||
    (decide (total - keepEnd ≤ mi) && decide (mi < total))

/-- Step 3 (lines 77-84): instruction index `idx` is dropped when it lies
inside the span of a non-kept message. -/
def slwinDrop (spans : List (Nat × Nat)) (keep : Nat → Bool) (idx : Nat) : Bool :=
  spans.enum.any fun mspan =>
    !keep mspan.1 && decide (mspan.2.1 ≤ idx) && decide (idx ≤ mspan.2.2)

/-- `SlidingWindow.Before` — lines 41-95 (minus params parsing): the early
return when everything fits the window, else the rebuild of step 4. -/
def slwinBefore (keepEnd keepStart : Nat) (code : List Instruction) :
    List Instruction :=
  let msgs := findSpans code 0
  let total := msgs.length
  if total ≤ keepStart + keepEnd then code
  else
    let keep := slwinKeep keepStart keepEnd total
    (code.enum.filter fun ix => !slwinDrop msgs keep ix.1).map Prod.snd

/-! ### Structured programs (for stating the sliding-window claim)

A well-formed program is an interleaving of non-message instructions and
complete messages; the claim describes `slwin`'s effect on that structure. -/

/-- A complete message: its `MSG_START` instruction, body, and `MSG_END`
instruction. -/
structure MsgSeg where
  startIns : Instruction
  body : List Instruction
  endIns : Instruction
deriving DecidableEq, Repr

/-- One segment of a well-formed program: a non-message instruction or a
complete message. -/
inductive Seg
  | plain (ins : Instruction)
  | msg (m : MsgSeg)
deriving DecidableEq, Repr

def Seg.flatten : Seg → List Instruction
  | .plain ins => [ins]
  | .msg m => m.startIns :: (m.body ++ [m.endIns])

def flattenSegs (segs : List Seg) : List Instruction :=
  (segs.map Seg.flatten).flatten

/-- Well-formedness: message markers appear exactly as the delimiters of
complete messages. -/
def SegWF : Seg → Prop
  | .plain ins => ins.op ≠ .MSG_START ∧ ins.op ≠ .MSG_END
  | .msg m =>
    m.startIns.op = .MSG_START ∧ m.endIns.op = .MSG_END ∧
      ∀ b ∈ m.body, b.op ≠ .MSG_START ∧ b.op ≠ .MSG_END

def SegsWF (segs : List Seg) : Prop := ∀ s ∈ segs, SegWF s

instance : DecidablePred SegWF := fun s =>
  match s with
  | .plain _ => inferInstanceAs (Decidable (_ ∧ _))
  | .msg _ => inferInstanceAs (Decidable (_ ∧ _ ∧ _))

instance (segs : List Seg) : Decidable (SegsWF segs) := by
  unfold SegsWF
  infer_instance

/-- The number of messages of a structured program. -/
def msgCount (segs : List Seg) : Nat :=
  (segs.filter fun s => match s with | .msg _ => true | .plain _ => false).length

/-- The claim's description of the window: every non-message instruction is
preserved, and the `k`-th message survives iff `keep k`. -/
def windowSegs (keep : Nat → Bool) : List Seg → Nat → List Seg
  | [], _ => []
  | .plain ins :: rest, k => .plain ins :: windowSegs keep rest k
  | .msg m :: rest, k =>
    (if keep k then [Seg.msg m] else []) ++ windowSegs keep rest (k + 1)

/-- The message spans of a structured program starting at absolute offset
`off` (what step 1's scan finds on a well-formed program). -/
def segSpans : List Seg → Nat → List (Nat × Nat)
  | [], _ => []
  | .plain _ :: rest, off => segSpans rest (off + 1)
  | .msg m :: rest, off =>
    (off, off + m.body.length + 1) :: segSpans rest (off + m.body.length + 2)

/-- The claim's description of the fuzz waterfall: the first provider, in
lister order, on which `tryMatch` succeeds, with the matched id. -/
def firstFuzzMatch (providers : List FuzzProvider) (base : List Char) :
    Option (List Char × List Char) :=
  providers.findSome? fun p => (tryMatch p.models base).map fun m => (p.Name, m)

/-- A one-key store used as concrete witness input. -/
def demoStore : MemoryStore :=
  { data := [("x", ⟨"old", none⟩)], order := ["x"], maxItems := 1, defaultTTL := 0 }

/-- A provider config supporting inference with no exports filter (witness input). -/
def demoCfg : ProviderCfg := { Private := false, ExportedModels := [], hasInference := true }

/-- Before-hook oracle failing on every provider (witness input): `E1` on `p1`,
`E2` otherwise. -/
def demoBeforeErrs : String → Option String :=
  fun name => if name = "p1" then some "E1" else some "E2"

/-- Two provider-config maps agree on everything the pipeline reads except
the exports-filter fields (`Private`, `ExportedModels`).  Used to state that
a run does not consult `IsModelExported`. -/
def sameExceptExports : Option ProviderCfg → Option ProviderCfg → Prop
  | none, none => True
  | some p, some q => p.hasInference = q.hasInference
  | _, _ => False

/-- A chain resolver whose chain for `fast/cheap` holds one virtual-provider
rewrite plugin (witness input). -/
def demoResolve : String → List RewritePlug :=
  fun m =>
    if m = "fast/cheap" then [⟨"virtual:fast", fun _ => ("gpt-4o-mini", true)⟩]
    else []

/-- A three-message program with a leading `SET_MODEL` (witness input). -/
def demoSegs : List Seg :=
  [.plain ⟨.SET_MODEL, "gpt-4", ""⟩,
   .msg ⟨⟨.MSG_START, "", ""⟩, [⟨.ROLE_USR, "", ""⟩, ⟨.TXT_CHUNK, "m1", ""⟩],
     ⟨.MSG_END, "", ""⟩⟩,
   .msg ⟨⟨.MSG_START, "", ""⟩, [⟨.ROLE_AST, "", ""⟩, ⟨.TXT_CHUNK, "m2", ""⟩],
     ⟨.MSG_END, "", ""⟩⟩,
   .msg ⟨⟨.MSG_START, "", ""⟩, [⟨.ROLE_USR, "", ""⟩, ⟨.TXT_CHUNK, "m3", ""⟩],
     ⟨.MSG_END, "", ""⟩⟩]

/-! ## Theorems -/

/-! ### Response capture and replay (claim about `replayCapture`) -/

theorem captureStep_foldl_response (ops : List WriterOp) :
    ∀ c : Capture, (ops.foldl captureStep c).Response = c.Response ++ writtenBytes ops := by
  induction ops with
  | nil => intro c; simp [writtenBytes]
  | cons op rest ih =>
    intro c
    cases op <;>
      simp [List.foldl_cons, captureStep, writtenBytes, ih, List.append_assoc] at *

/-- Claim C9: replaying a captured response writes exactly the concatenation
of the bytes the inner pipeline wrote to the capture writer, copies every
captured header, and never forwards the captured status code — the real
writer's status is untouched whatever `WriteHeader` calls the inner pipeline
made. -/
theorem replay_writes_captured_bytes_not_status (ops : List WriterOp) (w : RealWriter) :
    (replayCapture (runCapture ops) w).body = w.body ++ writtenBytes ops ∧
    (replayCapture (runCapture ops) w).headers = w.headers ++ (runCapture ops).Headers ∧
    (replayCapture (runCapture ops) w).status = w.status := by
  refine ⟨?_, rfl, rfl⟩
  have h := captureStep_foldl_response ops Capture.empty
  show w.body ++ (runCapture ops).Response = w.body ++ writtenBytes ops
  rw [runCapture, h]
  simp [Capture.empty]

/-! ### KV store (claims about `MemoryStore.Set`/`Delete`) -/

theorem mapGet_mapPut_self (d : List (String × MemEntry)) (key : String) (e : MemEntry) :
    mapGet (mapPut d key e) key = some e := by
  induction d with
  | nil => simp [mapPut, mapGet]
  | cons kv rest ih =>
    obtain ⟨a, b⟩ := kv
    by_cases h : a = key <;> simp [mapPut, mapGet, h, ih]

theorem mapGet_mapPut_ne (d : List (String × MemEntry)) (key k : String) (e : MemEntry)
    (h : k ≠ key) : mapGet (mapPut d key e) k = mapGet d k := by
  induction d with
  | nil => simp [mapPut, mapGet, Ne.symm h]
  | cons kv rest ih =>
    obtain ⟨a, b⟩ := kv
    by_cases hk : a = key
    · subst hk
      simp [mapPut, mapGet, Ne.symm h]
    · by_cases hk2 : a = k <;> simp [mapPut, mapGet, hk, hk2, ih, h]

/-- Claim C10: a `Set` whose key is already present replaces only the stored
value and expiry; the insertion-order list is unchanged, no eviction takes
place, and no other key's entry is touched. -/
theorem set_existing_key_frame (m : MemoryStore) (now : Nat) (key value : String)
    (ttl : Int) (h : (mapGet m.data key).isSome) :
    ((m.set now key value ttl).order = m.order ∧
      (m.set now key value ttl).maxItems = m.maxItems) ∧
    mapGet (m.set now key value ttl).data key =
      some ⟨value, expiryOf now (effTTL m ttl)⟩ ∧
    ∀ k, k ≠ key → mapGet (m.set now key value ttl).data k = mapGet m.data k := by
  refine ⟨⟨?_, ?_⟩, ?_, ?_⟩ <;>
    simp [MemoryStore.set, h, mapGet_mapPut_self, mapGet_mapPut_ne]
  intro k hk
  exact mapGet_mapPut_ne _ _ _ _ hk

theorem set_existing_key_frame_witness :
    (mapGet demoStore.data "x").isSome ∧
    ((demoStore.set 5 "x" "new" 0).order = demoStore.order ∧
      (demoStore.set 5 "x" "new" 0).maxItems = demoStore.maxItems) ∧
    mapGet (demoStore.set 5 "x" "new" 0).data "x" =
      some ⟨"new", expiryOf 5 (effTTL demoStore 0)⟩ ∧
    ∀ k, k ≠ "x" →
      mapGet (demoStore.set 5 "x" "new" 0).data k = mapGet demoStore.data k := by
  refine ⟨by decide, ?_⟩
  exact set_existing_key_frame demoStore 5 "x" "new" 0 (by decide)

/-- Claim C3 (code behaviour at the failing input): with capacity 3, the
sequence `Set a; Set b; Set c; Delete b; Set b; Set d` ends with `b` evicted
and `c` still present — the eviction removed the key that was re-inserted
most recently (`b`, re-set after `c`) instead of the oldest live key,
because the re-insertion left a stale duplicate of `b` at the front of the
insertion-order list. -/
theorem eviction_removes_reinserted_key :
    (((((((NewMemoryStore 3 0).set 0 "a" "a" 0).set 0 "b" "b" 0).set 0 "c" "c" 0).delete
        "b").set 0 "b" "b" 0).set 0 "d" "d" 0).get 0 "b" = none ∧
    (((((((NewMemoryStore 3 0).set 0 "a" "a" 0).set 0 "b" "b" 0).set 0 "c" "c" 0).delete
        "b").set 0 "b" "b" 0).set 0 "d" "d" 0).get 0 "c" = some "c" ∧
    (((((((NewMemoryStore 3 0).set 0 "a" "a" 0).set 0 "b" "b" 0).set 0 "c" "c" 0).delete
        "b").set 0 "b" "b" 0).set 0 "d" "d" 0).get 0 "d" = some "d" ∧
    (((((((NewMemoryStore 3 0).set 0 "a" "a" 0).set 0 "b" "b" 0).set 0 "c" "c" 0).delete
        "b").set 0 "b" "b" 0).set 0 "d" "d" 0).order = ["c", "b", "d"] := by
  refine ⟨?_, ?_, ?_, ?_⟩ <;> decide

/-! ### Streaming assembly (claim about `RunStreamEnd`'s argument) -/

/-- Claim C1 (code behaviour at the failing input): a stream of two
successful chunks (no runtime error, no chunk plugins) completes, the
function returns the fully assembled program, yet `RunStreamEnd` receives
only the last chunk, not the assembly of the surviving chunks. -/
theorem streamEnd_receives_last_chunk_only :
    (doStreamingInference [] [⟨[⟨.STREAM_DELTA, "he", ""⟩], none⟩,
        ⟨[⟨.STREAM_DELTA, "llo", ""⟩], none⟩]).streamEndArg =
      some (some [⟨.STREAM_DELTA, "llo", ""⟩]) ∧
    (survivingChunks [] [⟨[⟨.STREAM_DELTA, "he", ""⟩], none⟩,
        ⟨[⟨.STREAM_DELTA, "llo", ""⟩], none⟩]).flatten =
      [⟨.STREAM_DELTA, "he", ""⟩, ⟨.STREAM_DELTA, "llo", ""⟩] ∧
    (doStreamingInference [] [⟨[⟨.STREAM_DELTA, "he", ""⟩], none⟩,
        ⟨[⟨.STREAM_DELTA, "llo", ""⟩], none⟩]).result =
      .ok [⟨.STREAM_DELTA, "he", ""⟩, ⟨.STREAM_DELTA, "llo", ""⟩] ∧
    some (some [(⟨.STREAM_DELTA, "llo", ""⟩ : Instruction)]) ≠
      some (some [⟨.STREAM_DELTA, "he", ""⟩, ⟨.STREAM_DELTA, "llo", ""⟩]) := by
  refine ⟨?_, ?_, ?_, ?_⟩
  · rfl
  · rfl
  · rfl
  · decide

/-! ### Provider-iteration error surfacing (claims about
`RunInferencePipeline` and `handleAILRequest`) -/

theorem getLast?_cons_or {α : Type} (e : α) (l : List α) (d : Option α) :
    ((e :: l).getLast?).or d = (l.getLast?).or (some e) := by
  induction l generalizing e with
  | nil => simp
  | cons b t _ =>
    rw [List.getLast?_cons_cons]
    cases h : (b :: t).getLast? with
    | none => simp at h
    | some x => simp [Option.or]

/-- Exhaustive characterization of the shared pipeline loop when no
candidate serves successfully: the accumulated `displayErr` (else the first
recorded error) is returned; with no error, the 404 body is written exactly
when some candidate tripped the exports gate. -/
theorem pipeline_loop_exhaust (cfgs : String → Option ProviderCfg)
    (rb : String → Option String) (sv : String → Option String)
    (bypass : Bool) (model : String) :
    ∀ providers : List String,
      (∀ n ∈ providers, candidateServes cfgs rb sv bypass model n = false) →
      ∀ displayErr mne,
      runInferencePipelineLoop cfgs rb sv bypass model providers displayErr mne =
        match displayErr.or (pipelineRecordedErrors cfgs rb sv bypass model providers).head? with
        | some e => .errored e
        | none =>
          if mne || providers.any (candidateNotExported cfgs bypass model) then
            .wroteStatus 404 (modelNotFoundBody model)
          else .noWrite := by
  intro providers
  induction providers with
  | nil =>
    intro _ displayErr mne
    cases displayErr <;> simp [runInferencePipelineLoop, pipelineRecordedErrors, Option.or]
  | cons name rest ih =>
    intro h displayErr mne
    have hn : candidateServes cfgs rb sv bypass model name = false := h name (by simp)
    have hrest : ∀ n ∈ rest, candidateServes cfgs rb sv bypass model n = false :=
      fun n hm => h n (by simp [hm])
    simp only [runInferencePipelineLoop, pipelineRecordedErrors, List.filterMap_cons,
      List.any_cons]
    cases hc : cfgs name with
    | none =>
      simp only [hc]
      rw [ih hrest displayErr mne]
      simp [pipelineRecordedErrors, candidateNotExported, hc]
    | some p =>
      simp only [hc]
      by_cases hgate : (!bypass && !IsModelExported p model) = true
      · simp only [hgate, if_pos rfl]
        rw [ih hrest displayErr true]
        simp [pipelineRecordedErrors, candidateNotExported, hc, hgate]
      · simp only [hgate]
        rw [Bool.not_eq_true] at hgate
        simp only [hgate, Bool.false_eq_true, if_false]
        by_cases hinf : p.hasInference
        · simp only [hinf, Bool.not_true, Bool.false_eq_true, if_false]
          cases hb : rb name with
          | some e =>
            simp only [hb]
            rw [ih hrest _ mne]
            cases displayErr <;>
              simp [pipelineRecordedErrors, candidateNotExported, hc, hgate, hinf, hb,
                Option.or]
          | none =>
            cases hs : sv name with
            | some e =>
              simp only [hb, hs]
              rw [ih hrest _ mne]
              cases displayErr <;>
                simp [pipelineRecordedErrors, candidateNotExported, hc, hgate, hinf, hb,
                  hs, Option.or]
            | none =>
              exfalso
              have : candidateServes cfgs rb sv bypass model name = true := by
                simp [candidateServes, hc, hgate, hinf, hb, hs]
              rw [this] at hn
              exact Bool.true_eq_false.mp hn
        · have hinf' : p.hasInference = false := by
            cases hh : p.hasInference
            · rfl
            · exact absurd hh hinf
          simp only [hinf', Bool.not_false, if_true]
          rw [ih hrest displayErr mne]
          simp [pipelineRecordedErrors, candidateNotExported, hc, hgate, hinf']

/-- Exhaustive characterization of the AIL endpoint's provider loop when no
candidate serves: the *last* recorded error (else the incoming `lastErr`)
is returned. -/
theorem ail_loop_exhaust (cfgs : String → Option ProviderCfg)
    (rb : String → Option String) (sv : String → Except String Program) :
    ∀ providers : List String,
      (∀ n ∈ providers, ailCandidateServes cfgs rb sv n = false) →
      ∀ lastErr,
      handleAILRequestLoop cfgs rb sv providers lastErr =
        match ((ailRecordedErrors cfgs rb sv providers).getLast?).or lastErr with
        | some e => .err e
        | none => .noProvider := by
  intro providers
  induction providers with
  | nil =>
    intro _ lastErr
    cases lastErr <;> simp [handleAILRequestLoop, ailRecordedErrors, Option.or]
  | cons name rest ih =>
    intro h lastErr
    have hn : ailCandidateServes cfgs rb sv name = false := h name (by simp)
    have hrest : ∀ n ∈ rest, ailCandidateServes cfgs rb sv n = false :=
      fun n hm => h n (by simp [hm])
    simp only [handleAILRequestLoop, ailRecordedErrors, List.filterMap_cons]
    cases hc : cfgs name with
    | none =>
      simp only [hc]
      rw [ih hrest lastErr]
      simp [ailRecordedErrors, hc]
    | some p =>
      simp only [hc]
      by_cases hinf : p.hasInference
      · simp only [hinf, Bool.not_true, Bool.false_eq_true, if_false]
        cases hb : rb name with
        | some e =>
          simp only [hb]
          rw [ih hrest (some e), getLast?_cons_or]
          rfl
        | none =>
          cases hs : sv name with
          | error e =>
            simp only [hb, hs]
            rw [ih hrest (some e), getLast?_cons_or]
            rfl
          | ok resProg =>
            exfalso
            have : ailCandidateServes cfgs rb sv name = true := by
              simp [ailCandidateServes, hc, hinf, hb, hs]
            rw [this] at hn
            exact Bool.true_eq_false.mp hn
      · have hinf' : p.hasInference = false := by
          cases hh : p.hasInference
          · rfl
          · exact absurd hh hinf
        simp only [hinf', Bool.not_false, if_true]
        rw [ih hrest lastErr]
        simp [ailRecordedErrors, hc, hinf']

/-- Claim C2 counterexample: in the AIL endpoint's provider loop, two
providers whose before-hooks record the errors `E1` then `E2` make the
request fail with `E2` — the *last* recorded error, not the first. -/
theorem ail_returns_last_error_not_first :
    handleAILRequest (fun _ => some demoCfg) demoBeforeErrs
      (fun _ => .error "unused") ["p1", "p2"] = .err "E2" ∧
    ailRecordedErrors (fun _ => some demoCfg) demoBeforeErrs
      (fun _ => .error "unused") ["p1", "p2"] = ["E1", "E2"] ∧
    (AILOutcome.err "E2" ≠ AILOutcome.err "E1") := by
  refine ⟨by decide, by decide, by decide⟩

/-- Claim C2 (amended): when every candidate is exhausted with at least one
recorded error, the shared `RunInferencePipeline` surfaces the *first*
recorded error, while the AIL endpoint's `handleAILRequest` surfaces the
*last* one. -/
theorem pipeline_first_error_ail_last_error :
    (∀ (cfgs : String → Option ProviderCfg) (rb sv : String → Option String)
        (bypass : Bool) (model : String) (providers : List String) (e : String)
        (rest : List String),
      (∀ n ∈ providers, candidateServes cfgs rb sv bypass model n = false) →
      pipelineRecordedErrors cfgs rb sv bypass model providers = e :: rest →
      RunInferencePipeline cfgs rb sv bypass model providers = .errored e) ∧
    (∀ (cfgs : String → Option ProviderCfg) (rb : String → Option String)
        (sv : String → Except String Program) (providers : List String) (e : String),
      (∀ n ∈ providers, ailCandidateServes cfgs rb sv n = false) →
      (ailRecordedErrors cfgs rb sv providers).getLast? = some e →
      handleAILRequest cfgs rb sv providers = .err e) := by
  constructor
  · intro cfgs rb sv bypass model providers e rest hno hrec
    rw [RunInferencePipeline, pipeline_loop_exhaust cfgs rb sv bypass model providers hno
      none false]
    simp [hrec, Option.or]
  · intro cfgs rb sv providers e hno hrec
    rw [handleAILRequest, ail_loop_exhaust cfgs rb sv providers hno none]
    simp [hrec, Option.or]

theorem pipeline_first_error_ail_last_error_witness :
    RunInferencePipeline (fun _ => some demoCfg) demoBeforeErrs (fun _ => none)
      false "m" ["p1", "p2"] = .errored "E1" ∧
    handleAILRequest (fun _ => some demoCfg) demoBeforeErrs
      (fun _ => .error "unused") ["p1", "p2"] = .err "E2" := by
  constructor
  · exact pipeline_first_error_ail_last_error.1 (fun _ => some demoCfg) demoBeforeErrs
      (fun _ => none) false "m" ["p1", "p2"] "E1" ["E2"] (by decide) (by decide)
  · exact pipeline_first_error_ail_last_error.2 (fun _ => some demoCfg) demoBeforeErrs
      (fun _ => .error "unused") ["p1", "p2"] "E2" (by decide) (by decide)

/-! ### Exports filter outcomes (claims about the 404 path and the
virtual-rewrite bypass) -/

/-- Claim C4: with the bypass unset, if every candidate that supports
inference fails the exports check (and some found candidate indeed fails
it), the pipeline writes the structured 404 whose error code is
`model_not_found`; if instead any error was recorded during an exhausted
iteration, that (first) error is surfaced and no 404 body is written. -/
theorem exports_model_not_found_404 (cfgs : String → Option ProviderCfg)
    (rb sv : String → Option String) (model : String) (providers : List String) :
    ((∀ n ∈ providers, ∀ p, cfgs n = some p → p.hasInference = true →
        IsModelExported p model = false) →
      (∃ n ∈ providers, ∃ p, cfgs n = some p ∧ IsModelExported p model = false) →
      RunInferencePipeline cfgs rb sv false model providers =
        .wroteStatus 404 (modelNotFoundBody model) ∧
      ("code", "model_not_found") ∈ modelNotFoundBody model) ∧
    (∀ e rest,
      (∀ n ∈ providers, candidateServes cfgs rb sv false model n = false) →
      pipelineRecordedErrors cfgs rb sv false model providers = e :: rest →
      RunInferencePipeline cfgs rb sv false model providers = .errored e ∧
      ∀ status body, PipelineOutcome.errored e ≠ .wroteStatus status body) := by
  constructor
  · intro h1 h2
    have hno : ∀ n ∈ providers, candidateServes cfgs rb sv false model n = false := by
      intro n hn
      cases hc : cfgs n with
      | none => simp [candidateServes, hc]
      | some p =>
        cases hexp : IsModelExported p model with
        | false => simp [candidateServes, hc, hexp]
        | true =>
          have hinf : p.hasInference = false := by
            cases hhi : p.hasInference
            · rfl
            · rw [h1 n hn p hc hhi] at hexp
              exact absurd hexp (by simp)
          simp [candidateServes, hc, hexp, hinf]
    have hrec : pipelineRecordedErrors cfgs rb sv false model providers = [] := by
      rw [pipelineRecordedErrors, List.filterMap_eq_nil_iff]
      intro n hn
      cases hc : cfgs n with
      | none => simp [hc]
      | some p =>
        cases hexp : IsModelExported p model with
        | false => simp [hc, hexp]
        | true =>
          have hinf : p.hasInference = false := by
            cases hhi : p.hasInference
            · rfl
            · rw [h1 n hn p hc hhi] at hexp
              exact absurd hexp (by simp)
          simp [hc, hexp, hinf]
    have hany : providers.any (candidateNotExported cfgs false model) = true := by
      rw [List.any_eq_true]
      obtain ⟨n, hn, p, hc, hexp⟩ := h2
      exact ⟨n, hn, by simp [candidateNotExported, hc, hexp]⟩
    rw [RunInferencePipeline, pipeline_loop_exhaust cfgs rb sv false model providers hno
      none false]
    simp [hrec, hany, Option.or, modelNotFoundBody]
  · intro e rest hno hrec
    rw [RunInferencePipeline, pipeline_loop_exhaust cfgs rb sv false model providers hno
      none false]
    simp [hrec, Option.or]

theorem exports_model_not_found_404_witness :
    RunInferencePipeline (fun _ => some ⟨true, [], true⟩) (fun _ => none) (fun _ => none)
      false "m" ["p1"] = .wroteStatus 404 (modelNotFoundBody "m") ∧
    RunInferencePipeline (fun _ => some demoCfg) demoBeforeErrs (fun _ => none)
      false "mm" ["p1", "p2"] = .errored "E1" := by
  constructor
  · exact ((exports_model_not_found_404 (fun _ => some ⟨true, [], true⟩) (fun _ => none)
      (fun _ => none) "m" ["p1"]).1
      (by intro n hn p hp hinf; injection hp with hp; rw [← hp]; rfl)
      ⟨"p1", by simp, ⟨true, [], true⟩, rfl, rfl⟩).1
  · exact ((exports_model_not_found_404 (fun _ => some demoCfg) demoBeforeErrs
      (fun _ => none) "mm" ["p1", "p2"]).2 "E1" ["E2"] (by decide) (by decide)).1

theorem bypass_true_run_ignores_exports (cfgs cfgs' : String → Option ProviderCfg)
    (rb sv : String → Option String) (model : String)
    (hsame : ∀ n, sameExceptExports (cfgs n) (cfgs' n)) :
    ∀ (providers : List String) (displayErr : Option String) (mne : Bool),
      runInferencePipelineLoop cfgs rb sv true model providers displayErr mne =
        runInferencePipelineLoop cfgs' rb sv true model providers displayErr mne := by
  intro providers
  induction providers with
  | nil => intro displayErr mne; rfl
  | cons name rest ih =>
    intro displayErr mne
    have hs := hsame name
    simp only [runInferencePipelineLoop]
    cases hc : cfgs name with
    | none =>
      cases hc' : cfgs' name with
      | none => exact ih displayErr mne
      | some q => rw [hc, hc'] at hs; exact absurd hs (by simp [sameExceptExports])
    | some p =>
      cases hc' : cfgs' name with
      | none => rw [hc, hc'] at hs; exact absurd hs (by simp [sameExceptExports])
      | some q =>
        rw [hc, hc'] at hs
        have hinf : p.hasInference = q.hasInference := hs
        simp only [Bool.not_true, Bool.false_and, Bool.false_eq_true, if_false, hinf]
        cases q.hasInference
        · simp only [Bool.not_false, if_true]
          exact ih displayErr mne
        · simp only [Bool.not_true, Bool.false_eq_true, if_false]

          cases rb name with
          | some e => exact ih _ mne
          | none =>
            cases sv name with
            | some e => exact ih _ mne
            | none => rfl

theorem bypass_true_never_404 (cfgs : String → Option ProviderCfg)
    (rb sv : String → Option String) (model : String) :
    ∀ (providers : List String) (displayErr : Option String) (status : Nat)
      (body : List (String × String)),
      runInferencePipelineLoop cfgs rb sv true model providers displayErr false ≠
        .wroteStatus status body := by
  intro providers
  induction providers with
  | nil =>
    intro displayErr status body
    cases displayErr <;> simp [runInferencePipelineLoop]
  | cons name rest ih =>
    intro displayErr status body
    simp only [runInferencePipelineLoop]
    cases hc : cfgs name with
    | none => exact ih displayErr status body
    | some p =>
      simp only [Bool.not_true, Bool.false_and, Bool.false_eq_true, if_false]
      cases p.hasInference
      · simp only [Bool.not_false, if_true]
        exact ih displayErr status body
      · simp only [Bool.not_true, Bool.false_eq_true, if_false]
        cases rb name with
        | some e => exact ih _ status body
        | none =>
          cases sv name with
          | some e => exact ih _ status body
          | none => simp

theorem served_passed_exports_gate (cfgs : String → Option ProviderCfg)
    (rb sv : String → Option String) (model : String) :
    ∀ (providers : List String) (displayErr : Option String) (mne : Bool)
      (n : String) (p : ProviderCfg),
      runInferencePipelineLoop cfgs rb sv false model providers displayErr mne =
        .served n →
      cfgs n = some p → IsModelExported p model = true := by
  intro providers
  induction providers with
  | nil =>
    intro displayErr mne n p hrun
    cases displayErr with
    | some e => simp [runInferencePipelineLoop] at hrun
    | none =>
      by_cases hm : mne = true <;> simp [runInferencePipelineLoop, hm] at hrun
  | cons name rest ih =>
    intro displayErr mne n p hrun hc
    cases hcn : cfgs name with
    | none =>
      simp only [runInferencePipelineLoop, hcn] at hrun
      exact ih displayErr mne n p hrun hc
    | some q =>
      simp only [runInferencePipelineLoop, hcn] at hrun
      by_cases hgate : (!false && !IsModelExported q model) = true
      · rw [if_pos hgate] at hrun
        exact ih displayErr true n p hrun hc
      · rw [if_neg hgate] at hrun
        cases hqi : q.hasInference with
        | false =>
          simp only [hqi, Bool.not_false, if_true] at hrun
          exact ih displayErr mne n p hrun hc
        | true =>
          simp only [hqi, Bool.not_true, Bool.false_eq_true, if_false] at hrun
          cases hb : rb name with
          | some e =>
            rw [hb] at hrun
            exact ih _ mne n p hrun hc
          | none =>
            rw [hb] at hrun
            cases hs : sv name with
            | some e =>
              rw [hs] at hrun
              exact ih _ mne n p hrun hc
            | none =>
              rw [hs] at hrun
              have hname : name = n := by
                injection hrun with hrun
              subst hname
              rw [hc] at hcn
              injection hcn with hq
              subst hq
              simp only [Bool.not_false, Bool.true_and] at hgate
              cases hexp : IsModelExported p model with
              | false => rw [hexp] at hgate; exact absurd rfl hgate
              | true => rfl

/-- Claim C5: when the model-rewrite loop performed a rewrite attributed to
a `virtual:*`-named plugin, the exports-bypass flag is set and the provider
iteration never consults the exports filter (its outcome is invariant under
arbitrary changes to the `Private`/`ExportedModels` fields, and the 404
exports path is unreachable); conversely, without a virtual rewrite the flag
is unset and a candidate can only be served after passing the exports
check. -/
theorem virtual_rewrite_bypasses_exports (resolve : String → List RewritePlug)
    (model : String) (cfgs cfgs' : String → Option ProviderCfg)
    (rb sv : String → Option String) (providers : List String) :
    ((RequestPreamble resolve model).2 = true →
      ((∀ n, sameExceptExports (cfgs n) (cfgs' n)) →
        RunInferencePipeline cfgs rb sv (RequestPreamble resolve model).2
            (RequestPreamble resolve model).1 providers =
          RunInferencePipeline cfgs' rb sv (RequestPreamble resolve model).2
            (RequestPreamble resolve model).1 providers) ∧
      ∀ status body,
        RunInferencePipeline cfgs rb sv (RequestPreamble resolve model).2
          (RequestPreamble resolve model).1 providers ≠ .wroteStatus status body) ∧
    ((RequestPreamble resolve model).2 = false →
      ∀ n p,
        RunInferencePipeline cfgs rb sv (RequestPreamble resolve model).2
          (RequestPreamble resolve model).1 providers = .served n →
        cfgs n = some p →
        IsModelExported p (RequestPreamble resolve model).1 = true) := by
  constructor
  · intro hv
    rw [hv]
    constructor
    · intro hsame
      exact bypass_true_run_ignores_exports cfgs cfgs' rb sv _ hsame providers none false
    · intro status body
      exact bypass_true_never_404 cfgs rb sv _ providers none status body
  · intro hv n p hrun hc
    rw [hv] at hrun
    exact served_passed_exports_gate cfgs rb sv _ providers none false n p hrun hc

theorem virtual_rewrite_bypasses_exports_witness :
    RunInferencePipeline (fun _ => some ⟨true, [], true⟩) (fun _ => none) (fun _ => none)
        (RequestPreamble demoResolve "fast/cheap").2
        (RequestPreamble demoResolve "fast/cheap").1 ["p1"] =
      RunInferencePipeline (fun _ => some ⟨false, [("x", true)], true⟩) (fun _ => none)
        (fun _ => none) (RequestPreamble demoResolve "fast/cheap").2
        (RequestPreamble demoResolve "fast/cheap").1 ["p1"] ∧
    IsModelExported demoCfg (RequestPreamble (fun _ => []) "m").1 = true := by
  constructor
  · exact ((virtual_rewrite_bypasses_exports demoResolve "fast/cheap"
      (fun _ => some ⟨true, [], true⟩) (fun _ => some ⟨false, [("x", true)], true⟩)
      (fun _ => none) (fun _ => none) ["p1"]).1 (by decide)).1
      (fun n => by trivial)
  · exact (virtual_rewrite_bypasses_exports (fun _ => []) "m" (fun _ => some demoCfg)
      (fun _ => some demoCfg) (fun _ => none) (fun _ => none) ["p1"]).2 (by decide)
      "p1" demoCfg (by decide) (by decide)

/-! ### Tool-plugin round bound (claim about `RecursiveHandler`) -/

theorem toolLoop_invocations_le (oracle : Nat → RoundOutcome) (maxRounds : Nat) :
    ∀ (fuel round : Nat) (cap : Capture), maxRounds ≤ round + fuel →
      round ≤ maxRounds →
      (toolLoop oracle maxRounds round cap).invocations ≤ maxRounds := by
  intro fuel
  induction fuel with
  | zero =>
    intro round cap h hr
    rw [toolLoop, dif_neg (by omega)]
    exact hr
  | succ f ih =>
    intro round cap h hr
    rw [toolLoop]
    by_cases hlt : round < maxRounds
    · rw [dif_pos hlt]
      cases he : (oracle round).invokeErr with
      | some e =>
        simp only [he]
        omega
      | none =>
        simp only [he]
        cases hp : (oracle round).parseOk with
        | false =>
          simp only [hp, Bool.not_false, if_true]
          omega
        | true =>
          simp only [hp, Bool.not_true, Bool.false_eq_true, if_false]
          by_cases hz : (oracle round).nHandled = 0
          · simp only [hz, if_true]
            omega
          · simp only [hz, if_false]
            exact ih (round + 1) _ (by omega) (by omega)
    · rw [dif_neg hlt]
      exact hr

theorem toolLoop_exhaust (oracle : Nat → RoundOutcome) (maxRounds : Nat) :
    ∀ (fuel round : Nat) (cap : Capture), maxRounds ≤ round + fuel →
      (∀ r, round ≤ r → r < maxRounds →
        (oracle r).invokeErr = none ∧ (oracle r).parseOk = true ∧
          (oracle r).nHandled ≠ 0) →
      toolLoop oracle maxRounds round cap =
        if round < maxRounds then
          { handled := true, err := none, invocations := maxRounds,
            replayed := some (oracle (maxRounds - 1)).capture }
        else
          { handled := true, err := none, invocations := round,
            replayed := some cap } := by
  intro fuel
  induction fuel with
  | zero =>
    intro round cap h hall
    rw [toolLoop, dif_neg (by omega), if_neg (by omega)]
  | succ f ih =>
    intro round cap h hall
    rw [toolLoop]
    by_cases hlt : round < maxRounds
    · rw [dif_pos hlt, if_pos hlt]
      obtain ⟨he, hp, hz⟩ := hall round le_rfl hlt
      simp only [he, hp, hz, Bool.not_true, Bool.false_eq_true, if_false]
      rw [ih (round + 1) (oracle round).capture (by omega)
        (fun r hr1 hr2 => hall r (by omega) hr2)]
      by_cases hlt2 : round + 1 < maxRounds
      · rw [if_pos hlt2]
      · rw [if_neg hlt2]
        have heq : maxRounds - 1 = round := by omega
        have heq2 : maxRounds = round + 1 := by omega
        rw [heq, heq2]
    · rw [dif_neg hlt, if_neg hlt]

/-- Claim C7: with the re-entry sentinel unset, `RecursiveHandler` invokes
the inner pipeline at most `MaxRounds` times (10 when the field is unset or
non-positive); and when every round keeps producing in-router tool calls,
the loop stops after exactly `MaxRounds` invocations, replays the last
captured response, and returns handled with no error. -/
theorem tool_plugin_round_bound (maxRoundsField : Int) (maxRounds : Nat)
    (hm : maxRounds = if maxRoundsField ≤ 0 then 10 else maxRoundsField.toNat)
    (oracle : Nat → RoundOutcome) :
    (recursiveHandler false maxRoundsField oracle).invocations ≤ maxRounds ∧
    ((∀ r, r < maxRounds → (oracle r).invokeErr = none ∧ (oracle r).parseOk = true ∧
        (oracle r).nHandled ≠ 0) →
      recursiveHandler false maxRoundsField oracle =
        { handled := true, err := none, invocations := maxRounds,
          replayed := some (oracle (maxRounds - 1)).capture }) := by
  have h1 : 1 ≤ maxRounds := by
    rw [hm]
    split <;> omega
  constructor
  · rw [recursiveHandler]
    simp only [Bool.false_eq_true, if_false, ← hm]
    cases (oracle 0).invokeErr with
    | some e => simpa using h1
    | none =>
      cases hp : (oracle 0).parseOk with
      | false => simpa [hp] using h1
      | true =>
        by_cases hz : (oracle 0).nHandled = 0
        · simpa [hp, hz] using h1
        · simp only [hp, hz, Bool.not_true, Bool.false_eq_true, if_false]
          exact toolLoop_invocations_le oracle maxRounds maxRounds 1
            (oracle 0).capture (by omega) h1
  · intro hall
    obtain ⟨he, hp, hz⟩ := hall 0 (by omega)
    rw [recursiveHandler]
    simp only [Bool.false_eq_true, if_false, ← hm, he, hp, hz, Bool.not_true, if_false]
    rw [toolLoop_exhaust oracle maxRounds maxRounds 1 (oracle 0).capture (by omega)
      (fun r _ hr2 => hall r hr2)]
    by_cases hlt : 1 < maxRounds
    · rw [if_pos hlt]
    · rw [if_neg hlt]
      have heq : maxRounds = 1 := by omega
      rw [heq]

theorem tool_plugin_round_bound_witness :
    ((2 : Nat) = if (2 : Int) ≤ 0 then 10 else (2 : Int).toNat) ∧
    (recursiveHandler false 2 (fun _ => ⟨none, Capture.empty, true, 1⟩)).invocations ≤ 2 ∧
    recursiveHandler false 2 (fun _ => ⟨none, Capture.empty, true, 1⟩) =
      { handled := true, err := none, invocations := 2,
        replayed := some Capture.empty } := by
  have h := tool_plugin_round_bound 2 2 (by decide) (fun _ => ⟨none, Capture.empty, true, 1⟩)
  exact ⟨by decide, h.1, h.2 (fun r _ => ⟨rfl, rfl, by decide⟩)⟩

/-! ### Fuzzy model matcher (claim about `Fuzz.RewriteModel`) -/

/-- `strings.Contains` really is substring containment. -/
theorem containsSub_iff (pat : List Char) : ∀ s, containsSub s pat = true ↔ pat <:+: s := by
  intro s
  induction s with
  | nil =>
    rw [containsSub]
    constructor
    · intro h
      split at h
      · next hpre => exact (List.isPrefixOf_iff_prefix.mp hpre).isInfix
      · exact absurd h (by simp)
    · intro h
      have hnil : pat = [] := by
        rcases h with ⟨s, t, hst⟩
        exact (List.append_eq_nil.mp (List.append_eq_nil.mp hst).1).2
      subst hnil
      simp [List.isPrefixOf]
  | cons c rest ih =>
    rw [containsSub]
    by_cases hpre : pat.isPrefixOf (c :: rest) = true
    · simp only [hpre, if_true, true_iff]
      exact (List.isPrefixOf_iff_prefix.mp hpre).isInfix
    · simp only [hpre, Bool.false_eq_true, if_false]
      rw [ih, List.infix_cons_iff]
      constructor
      · exact Or.inr
      · rintro (hp | hi)
        · exact absurd (List.isPrefixOf_iff_prefix.mpr hp) hpre
        · exact hi

theorem indexOfChar_not_mem {c : Char} : ∀ {s : List Char}, c ∉ s →
    indexOfChar c s = none := by
  intro s
  induction s with
  | nil => intro _; rfl
  | cons x rest ih =>
    intro h
    rw [indexOfChar, if_neg (fun hx : x = c => h (hx ▸ List.mem_cons_self x rest)),
      ih (fun hm => h (List.mem_cons_of_mem x hm))]
    rfl

theorem indexOfChar_first {c : Char} : ∀ (pre post : List Char), c ∉ pre →
    indexOfChar c (pre ++ c :: post) = some pre.length := by
  intro pre
  induction pre with
  | nil => intro post _; simp [indexOfChar]
  | cons x rest ih =>
    intro post h
    rw [List.cons_append, indexOfChar,
      if_neg (fun hx : x = c => h (hx ▸ List.mem_cons_self x rest)),
      ih post (fun hm => h (List.mem_cons_of_mem x hm))]
    rfl

theorem any_beq_iff_mem (models : List (List Char)) (b : List Char) :
    (models.any fun m => m == b) = true ↔ b ∈ models := by
  rw [List.any_eq_true]
  constructor
  · rintro ⟨m, hm, he⟩
    rw [beq_iff_eq] at he
    exact he ▸ hm
  · intro hb
    exact ⟨b, hb, by simp⟩

theorem fuzzWaterfall_eq_firstFuzzMatch :
    ∀ (providers : List FuzzProvider) (model base suffix : List Char),
      fuzzWaterfall providers model base suffix =
        match firstFuzzMatch providers base with
        | some nm => (nm.1 ++ '/' :: (nm.2 ++ suffix), true)
        | none => (model, false) := by
  intro providers
  induction providers with
  | nil => intro model base suffix; rfl
  | cons p rest ih =>
    intro model base suffix
    rw [fuzzWaterfall]
    cases ht : tryMatch p.models base with
    | some m => simp [firstFuzzMatch, List.findSome?_cons, ht]
    | none =>
      rw [ih model base suffix]
      simp [firstFuzzMatch, List.findSome?_cons, ht]

/-- Claim C6: for `provider/partial(+suffix)` models the fuzz rewriter keeps
the model untouched (`matched = false`) when the provider lists `partial`
exactly; otherwise it rewrites to the first listed id containing `partial`
as a substring, preserving the plugin suffix verbatim; and a bare model is
run through the same per-provider rules in waterfall order. -/
theorem fuzz_rewrite_spec (providers : List FuzzProvider)
    (provider basePart suffix : List Char)
    (hpS : ('/' : Char) ∉ provider) (hpP : ('+' : Char) ∉ provider)
    (hbP : ('+' : Char) ∉ basePart)
    (hsuf : suffix = [] ∨ ∃ s, suffix = '+' :: s)
    (hlow : toLowerStr provider = provider) :
    (basePart ∈ getModels providers provider →
      rewriteModel providers (provider ++ '/' :: (basePart ++ suffix)) =
        (provider ++ '/' :: (basePart ++ suffix), false)) ∧
    (basePart ∉ getModels providers provider →
      ∀ id, ((getModels providers provider).find? fun m => containsSub m basePart) =
          some id →
        rewriteModel providers (provider ++ '/' :: (basePart ++ suffix)) =
          (provider ++ '/' :: (id ++ suffix), true)) ∧
    (('/' : Char) ∉ basePart →
      rewriteModel providers (basePart ++ suffix) =
        match firstFuzzMatch providers basePart with
        | some nm => (nm.1 ++ '/' :: (nm.2 ++ suffix), true)
        | none => (basePart ++ suffix, false)) := by
  have hplusfree : ('+' : Char) ∉ provider ++ '/' :: basePart := by
    intro hmem
    rcases List.mem_append.mp hmem with h | h
    · exact hpP h
    · rcases List.mem_cons.mp h with h | h
      · exact absurd h (by decide)
      · exact hbP h
  have hred : rewriteModel providers (provider ++ '/' :: (basePart ++ suffix)) =
      match tryMatch (getModels providers provider) basePart with
      | some matched => (provider ++ '/' :: (matched ++ suffix), true)
      | none => (provider ++ '/' :: (basePart ++ suffix), false) := by
    rcases hsuf with rfl | ⟨s, rfl⟩
    · rw [rewriteModel]
      rw [indexOfChar_not_mem (by simpa using hplusfree)]
      simp only [List.append_nil]
      rw [indexOfChar_first provider basePart hpS]
      dsimp only
      rw [show (provider ++ '/' :: basePart).take provider.length = provider from by
        rw [List.append_cons, List.append_assoc]
        exact List.take_left provider _]
      rw [show (provider ++ '/' :: basePart).drop (provider.length + 1) = basePart from by
        rw [List.append_cons, List.append_assoc, ← List.drop_drop, List.drop_left]
        rfl]
      rw [hlow]
    · rw [rewriteModel]
      rw [show provider ++ '/' :: (basePart ++ '+' :: s) =
        (provider ++ '/' :: basePart) ++ '+' :: s by simp]
      rw [indexOfChar_first _ _ hplusfree]
      simp only [List.take_left, List.drop_left]
      rw [indexOfChar_first provider basePart hpS]
      dsimp only
      rw [show (provider ++ '/' :: basePart).take provider.length = provider from by
        rw [List.append_cons, List.append_assoc]
        exact List.take_left provider _]
      rw [show (provider ++ '/' :: basePart).drop (provider.length + 1) = basePart from by
        rw [List.append_cons, List.append_assoc, ← List.drop_drop, List.drop_left]
        rfl]
      rw [hlow]
  refine ⟨?_, ?_, ?_⟩
  · intro hmem
    rw [hred, tryMatch, if_pos ((any_beq_iff_mem _ _).mpr hmem)]
  · intro hmem id hfind
    rw [hred, tryMatch]
    rw [if_neg (fun hany => hmem ((any_beq_iff_mem _ _).mp hany))]
    rw [hfind]
  · intro hbS
    rcases hsuf with rfl | ⟨s, rfl⟩
    · rw [rewriteModel]
      rw [indexOfChar_not_mem (by simpa using hbP)]
      simp only [List.append_nil]
      rw [indexOfChar_not_mem hbS]
      show fuzzWaterfall providers basePart basePart [] = _
      rw [fuzzWaterfall_eq_firstFuzzMatch]
      cases firstFuzzMatch providers basePart <;> simp
    · rw [rewriteModel]
      rw [indexOfChar_first basePart s hbP]
      simp only [List.take_left, List.drop_left]
      rw [indexOfChar_not_mem hbS]
      show fuzzWaterfall providers (basePart ++ '+' :: s) basePart ('+' :: s) = _
      rw [fuzzWaterfall_eq_firstFuzzMatch]

theorem fuzz_rewrite_spec_witness :
    rewriteModel [⟨"openai".data, ["gpt-4-0613".data, "gpt-3.5-turbo".data]⟩]
      ("openai".data ++ '/' :: ("gpt-4".data ++ "+fuzz+logger".data)) =
      ("openai".data ++ '/' :: ("gpt-4-0613".data ++ "+fuzz+logger".data), true) ∧
    rewriteModel [⟨"openai".data, ["gpt-4-0613".data, "gpt-3.5-turbo".data]⟩]
      ("openai".data ++ '/' :: ("gpt-4-0613".data ++ [])) =
      ("openai".data ++ '/' :: ("gpt-4-0613".data ++ []), false) := by
  constructor
  · exact (fuzz_rewrite_spec [⟨"openai".data, ["gpt-4-0613".data, "gpt-3.5-turbo".data]⟩]
      "openai".data "gpt-4".data "+fuzz+logger".data (by decide) (by decide) (by decide)
      (Or.inr ⟨"fuzz+logger".data, rfl⟩) (by decide)).2.1 (by decide)
      "gpt-4-0613".data (by decide)
  · exact (fuzz_rewrite_spec [⟨"openai".data, ["gpt-4-0613".data, "gpt-3.5-turbo".data]⟩]
      "openai".data "gpt-4-0613".data [] (by decide) (by decide) (by decide)
      (Or.inl rfl) (by decide)).1 (by decide)

/-! ### Sliding window (claim about `SlidingWindow.Before`) -/

theorem flattenSegs_nil : flattenSegs [] = [] := rfl

theorem flattenSegs_cons (s : Seg) (rest : List Seg) :
    flattenSegs (s :: rest) = s.flatten ++ flattenSegs rest := by
  simp [flattenSegs]

theorem flattenSegs_append (a b : List Seg) :
    flattenSegs (a ++ b) = flattenSegs a ++ flattenSegs b := by
  simp [flattenSegs]

theorem msgCount_cons_plain (ins : Instruction) (rest : List Seg) :
    msgCount (.plain ins :: rest) = msgCount rest := by
  simp [msgCount, List.filter]

theorem msgCount_cons_msg (m : MsgSeg) (rest : List Seg) :
    msgCount (.msg m :: rest) = msgCount rest + 1 := by
  simp [msgCount, List.filter]

theorem segSpans_length : ∀ (segs : List Seg) (off : Nat),
    (segSpans segs off).length = msgCount segs := by
  intro segs
  induction segs with
  | nil => intro off; rfl
  | cons s rest ih =>
    intro off
    cases s with
    | plain ins => rw [segSpans, msgCount_cons_plain, ih]
    | msg m => rw [segSpans, msgCount_cons_msg, List.length_cons, ih]

theorem segSpans_start_le : ∀ (segs : List Seg) (off : Nat),
    ∀ q ∈ segSpans segs off, off ≤ q.1 := by
  intro segs
  induction segs with
  | nil => intro off q hq; simp [segSpans] at hq
  | cons s rest ih =>
    intro off q hq
    cases s with
    | plain ins =>
      rw [segSpans] at hq
      exact le_trans (by omega) (ih (off + 1) q hq)
    | msg m =>
      rw [segSpans] at hq
      rcases List.mem_cons.mp hq with rfl | hq
      · exact le_refl _
      · exact le_trans (by omega) (ih (off + m.body.length + 2) q hq)

theorem findIdx?_msg_end_eq :
    ∀ (pre : List Instruction), (∀ b ∈ pre, b.op ≠ .MSG_END) →
      ∀ (endIns : Instruction), endIns.op = .MSG_END →
      ∀ (tail : List Instruction) (j : Nat),
      (pre ++ endIns :: tail).findIdx? (fun ins => ins.op == .MSG_END) j =
        some (j + pre.length) := by
  intro pre
  induction pre with
  | nil =>
    intro _ endIns hend tail j
    rw [List.nil_append, List.findIdx?_cons, if_pos (by simp [hend])]
    rfl
  | cons b rest ih =>
    intro hpre endIns hend tail j
    rw [List.cons_append, List.findIdx?_cons,
      if_neg (by simp [hpre b (List.mem_cons_self b rest)]),
      ih (fun x hx => hpre x (List.mem_cons_of_mem b hx)) endIns hend tail (j + 1)]
    simp only [List.length_cons, Option.some.injEq]
    omega

/-- Step 1's scan, on a well-formed program, finds exactly the message
spans. -/
theorem findSpans_flatten :
    ∀ (segs : List Seg), SegsWF segs →
      ∀ pre : List Instruction,
      findSpans (pre ++ flattenSegs segs) pre.length = segSpans segs pre.length := by
  intro segs
  induction segs with
  | nil =>
    intro _ pre
    rw [flattenSegs_nil, List.append_nil, findSpans, dif_neg (by omega)]
    rfl
  | cons s rest ih =>
    intro hwf pre
    have hwfs : SegWF s := hwf s (List.mem_cons_self s rest)
    have hwfr : SegsWF rest := fun x hx => hwf x (List.mem_cons_of_mem s hx)
    cases s with
    | plain ins =>
      obtain ⟨hnotS, _⟩ := hwfs
      rw [flattenSegs_cons]
      rw [show Seg.flatten (.plain ins) ++ flattenSegs rest =
        ins :: flattenSegs rest from rfl]
      have hlen : pre.length < (pre ++ ins :: flattenSegs rest).length := by simp
      rw [findSpans, dif_pos hlen]
      have hget : (pre ++ ins :: flattenSegs rest).get ⟨pre.length, hlen⟩ = ins := by
        simp [List.get_eq_getElem, List.getElem_append_right (le_refl pre.length)]
      rw [hget, if_neg hnotS]
      have h2 := ih hwfr (pre ++ [ins])
      rw [List.append_assoc] at h2
      simp only [List.length_append, List.length_cons, List.length_nil, List.cons_append,
        List.nil_append] at h2
      rw [show segSpans (Seg.plain ins :: rest) pre.length =
        segSpans rest (pre.length + 1) from rfl]
      exact h2
    | msg m =>
      obtain ⟨hS, hE, hbody⟩ := hwfs
      rw [flattenSegs_cons]
      rw [show Seg.flatten (.msg m) ++ flattenSegs rest =
        m.startIns :: (m.body ++ m.endIns :: flattenSegs rest) from by simp [Seg.flatten]]
      have hlen : pre.length <
          (pre ++ m.startIns :: (m.body ++ m.endIns :: flattenSegs rest)).length := by simp
      rw [findSpans, dif_pos hlen]
      have hget : (pre ++ m.startIns :: (m.body ++ m.endIns :: flattenSegs rest)).get
          ⟨pre.length, hlen⟩ = m.startIns := by
        simp [List.get_eq_getElem, List.getElem_append_right (le_refl pre.length)]
      rw [hget, if_pos hS]
      rw [List.drop_left]
      rw [show m.startIns :: (m.body ++ m.endIns :: flattenSegs rest) =
        (m.startIns :: m.body) ++ m.endIns :: flattenSegs rest from rfl]
      rw [findIdx?_msg_end_eq (m.startIns :: m.body)
        (by
          intro b hb
          rcases List.mem_cons.mp hb with rfl | hb
          · rw [hS]
            exact fun hc => Opcode.noConfusion hc
          · exact (hbody b hb).2)
        m.endIns hE (flattenSegs rest) 0]
      rw [show 0 + (m.startIns :: m.body).length = m.body.length + 1 from by simp]
      dsimp only
      rw [segSpans]
      rw [show pre.length + (m.body.length + 1) = pre.length + m.body.length + 1 from by
        omega]
      have h2 := ih hwfr (pre ++ m.startIns :: (m.body ++ [m.endIns]))
      rw [show (pre ++ m.startIns :: (m.body ++ [m.endIns])) ++ flattenSegs rest =
        pre ++ ((m.startIns :: m.body) ++ m.endIns :: flattenSegs rest) from by
          simp] at h2
      rw [show (pre ++ m.startIns :: (m.body ++ [m.endIns])).length =
        pre.length + m.body.length + 2 from by
          simp only [List.length_append, List.length_cons, List.length_nil]
          omega] at h2
      rw [show pre.length + m.body.length + 1 + 1 = pre.length + m.body.length + 2 from by
        omega]
      rw [h2]

/-- Evaluating the drop predicate when the first `mi` spans end before the
index: only the remaining spans matter. -/
theorem slwinDrop_eval (S : List (Nat × Nat)) (keep : Nat → Bool) (mi idx : Nat)
    (hmi : mi ≤ S.length) (htake : ∀ q ∈ S.take mi, q.2 < idx) :
    slwinDrop S keep idx =
      ((S.drop mi).enumFrom mi).any fun q =>
        !keep q.1 && decide (q.2.1 ≤ idx) && decide (idx ≤ q.2.2) := by
  rw [slwinDrop]
  rw [show S.enum = S.enumFrom 0 from rfl]
  conv_lhs => rw [← List.take_append_drop mi S]
  rw [List.enumFrom_append, List.any_append]
  have hlen : (S.take mi).length = mi := by
    simp only [List.length_take]
    omega
  rw [hlen, Nat.zero_add]
  have hfirst : ((S.take mi).enumFrom 0).any (fun q =>
      !keep q.1 && decide (q.2.1 ≤ idx) && decide (idx ≤ q.2.2)) = false := by
    rw [List.any_eq_false]
    intro x hx
    have hx2 : x.2 ∈ S.take mi := List.snd_mem_of_mem_enumFrom hx
    have hlt := htake x.2 hx2
    have hd : decide (idx ≤ x.2.2) = false := decide_eq_false (by omega)
    simp [hd]
  rw [hfirst, Bool.false_or]

theorem enumFrom_filter_all_true {α : Type} (p : Nat → Bool) :
    ∀ (l : List α) (off : Nat), (∀ k, k < l.length → p (off + k) = true) →
      ((l.enumFrom off).filter fun ix => p ix.1).map Prod.snd = l := by
  intro l
  induction l with
  | nil => intro off _; rfl
  | cons x t ih =>
    intro off h
    rw [show (x :: t).enumFrom off = (off, x) :: t.enumFrom (off + 1) from rfl]
    rw [List.filter_cons]
    have h0 : p off = true := by
      have := h 0 (by simp)
      simpa using this
    rw [show p (off, x).1 = p off from rfl, h0, if_pos rfl]
    rw [List.map_cons]
    congr 1
    apply ih
    intro k hk
    rw [show off + 1 + k = off + (k + 1) from by omega]
    exact h (k + 1) (by simpa using Nat.succ_lt_succ hk)

theorem enumFrom_filter_all_false {α : Type} (p : Nat → Bool) :
    ∀ (l : List α) (off : Nat), (∀ k, k < l.length → p (off + k) = false) →
      ((l.enumFrom off).filter fun ix => p ix.1).map Prod.snd = [] := by
  intro l
  induction l with
  | nil => intro off _; rfl
  | cons x t ih =>
    intro off h
    rw [show (x :: t).enumFrom off = (off, x) :: t.enumFrom (off + 1) from rfl]
    rw [List.filter_cons]
    have h0 : p off = false := by
      have := h 0 (by simp)
      simpa using this
    rw [show p (off, x).1 = p off from rfl, h0]
    rw [if_neg (by simp)]
    apply ih
    intro k hk
    rw [show off + 1 + k = off + (k + 1) from by omega]
    exact h (k + 1) (by simpa using Nat.succ_lt_succ hk)

/-- Steps 2-4 on a well-formed program: the rebuild keeps every non-message
instruction and exactly the kept messages.  `S` is the global span list; the
first `mi` spans belong to messages before offset `off`. -/
theorem slwin_filter_flatten (keep : Nat → Bool) (S : List (Nat × Nat)) :
    ∀ (segs : List Seg) (off mi : Nat),
      SegsWF segs → mi ≤ S.length →
      (∀ q ∈ S.take mi, q.2 < off) →
      S.drop mi = segSpans segs off →
      (((flattenSegs segs).enumFrom off).filter fun ix => !slwinDrop S keep ix.1).map
        Prod.snd = flattenSegs (windowSegs keep segs mi) := by
  intro segs
  induction segs with
  | nil => intro off mi _ _ _ _; rfl
  | cons s rest ih =>
    intro off mi hwf hmi htake hdrop
    have hwfr : SegsWF rest := fun x hx => hwf x (List.mem_cons_of_mem s hx)
    cases s with
    | plain ins =>
      rw [segSpans] at hdrop
      rw [flattenSegs_cons,
        show Seg.flatten (.plain ins) ++ flattenSegs rest = ins :: flattenSegs rest
          from rfl]
      rw [show (ins :: flattenSegs rest).enumFrom off =
        (off, ins) :: (flattenSegs rest).enumFrom (off + 1) from rfl]
      rw [List.filter_cons]
      have hoffdrop : slwinDrop S keep off = false := by
        rw [slwinDrop_eval S keep mi off hmi htake, hdrop, List.any_eq_false]
        intro x hx
        have hge := segSpans_start_le rest (off + 1) x.2
          (List.snd_mem_of_mem_enumFrom hx)
        have hd : decide (x.2.1 ≤ off) = false := decide_eq_false (by omega)
        simp [hd]
      rw [show (!slwinDrop S keep (off, ins).1) = !slwinDrop S keep off from rfl,
        hoffdrop]
      simp only [Bool.not_false]
      rw [if_pos trivial, List.map_cons]
      rw [windowSegs, flattenSegs_cons,
        show Seg.flatten (.plain ins) ++ flattenSegs (windowSegs keep rest mi) =
          ins :: flattenSegs (windowSegs keep rest mi) from rfl]
      congr 1
      exact ih (off + 1) mi hwfr hmi
        (fun q hq => by have := htake q hq; omega) hdrop
    | msg m =>
      rw [segSpans] at hdrop
      rw [flattenSegs_cons, List.enumFrom_append, List.filter_append, List.map_append]
      have hXlen : (Seg.flatten (.msg m)).length = m.body.length + 2 := by
        simp [Seg.flatten]
      have hdk : ∀ k, k < m.body.length + 2 →
          slwinDrop S keep (off + k) = !keep mi := by
        intro k hk
        rw [slwinDrop_eval S keep mi (off + k) hmi
          (fun q hq => by have := htake q hq; omega), hdrop]
        rw [show ((off, off + m.body.length + 1) ::
            segSpans rest (off + m.body.length + 2)).enumFrom mi =
          (mi, (off, off + m.body.length + 1)) ::
            (segSpans rest (off + m.body.length + 2)).enumFrom (mi + 1) from rfl]
        rw [List.any_cons]
        have hrest0 : ((segSpans rest (off + m.body.length + 2)).enumFrom (mi + 1)).any
            (fun q => !keep q.1 && decide (q.2.1 ≤ off + k) &&
              decide (off + k ≤ q.2.2)) = false := by
          rw [List.any_eq_false]
          intro x hx
          have hge := segSpans_start_le rest (off + m.body.length + 2) x.2
            (List.snd_mem_of_mem_enumFrom hx)
          have hd : decide (x.2.1 ≤ off + k) = false := decide_eq_false (by omega)
          simp [hd]
        rw [hrest0]
        have h1 : decide (off ≤ off + k) = true := decide_eq_true (by omega)
        have h2 : decide (off + k ≤ off + m.body.length + 1) = true :=
          decide_eq_true (by omega)
        simp [h1, h2]
      have hmi' : mi + 1 ≤ S.length := by
        have hc := congrArg List.length hdrop
        rw [List.length_drop, List.length_cons] at hc
        omega
      have hgetmi : S[mi]? = some (off, off + m.body.length + 1) := by
        rw [← List.head?_drop, hdrop]
        rfl
      have htake' : ∀ q ∈ S.take (mi + 1), q.2 < off + (m.body.length + 2) := by
        intro q hq
        rw [List.take_succ, hgetmi] at hq
        rcases List.mem_append.mp hq with hq | hq
        · have := htake q hq
          omega
        · simp at hq
          subst hq
          simp
          omega
      have hdrop' : S.drop (mi + 1) = segSpans rest (off + (m.body.length + 2)) := by
        rw [← List.drop_drop 1 mi S, hdrop]
        rw [show off + (m.body.length + 2) = off + m.body.length + 2 from by omega]
        rfl
      have hsecond := ih (off + (m.body.length + 2)) (mi + 1) hwfr hmi' htake' hdrop'
      rw [hXlen]
      rw [windowSegs, flattenSegs_append]
      cases hk : keep mi with
      | true =>
        have hfirst := enumFrom_filter_all_true (fun i => !slwinDrop S keep i)
          (Seg.flatten (.msg m)) off
          (by
            intro k hkk
            rw [hXlen] at hkk
            show (!slwinDrop S keep (off + k)) = _
            rw [hdk k hkk, hk]
            rfl)
        rw [hfirst, hsecond]
        simp [flattenSegs]
      | false =>
        have hfirst := enumFrom_filter_all_false (fun i => !slwinDrop S keep i)
          (Seg.flatten (.msg m)) off
          (by
            intro k hkk
            rw [hXlen] at hkk
            show (!slwinDrop S keep (off + k)) = _
            rw [hdk k hkk, hk]
            rfl)
        rw [hfirst, hsecond]
        simp [flattenSegs]

/-- Claim C8: on a well-formed program, `slwin` is the identity when the
message count fits `keepStart + keepEnd`; otherwise it keeps exactly the
first `keepStart` and last `keepEnd` messages in order and preserves every
non-message instruction. -/
theorem sliding_window_spec (keepEnd keepStart : Nat) (segs : List Seg)
    (hwf : SegsWF segs) :
    slwinBefore keepEnd keepStart (flattenSegs segs) =
      if msgCount segs ≤ keepStart + keepEnd then flattenSegs segs
      else
        flattenSegs (windowSegs (slwinKeep keepStart keepEnd (msgCount segs)) segs 0) := by
  have hspans : findSpans (flattenSegs segs) 0 = segSpans segs 0 := by
    have h := findSpans_flatten segs hwf []
    rw [List.nil_append] at h
    exact h
  simp only [slwinBefore]
  rw [hspans, segSpans_length]
  by_cases hc : msgCount segs ≤ keepStart + keepEnd
  · rw [if_pos hc, if_pos hc]
  · rw [if_neg hc, if_neg hc]
    rw [show (flattenSegs segs).enum = (flattenSegs segs).enumFrom 0 from rfl]
    exact slwin_filter_flatten (slwinKeep keepStart keepEnd (msgCount segs))
      (segSpans segs 0) segs 0 0 hwf (Nat.zero_le _) (by simp) (List.drop_zero _)

theorem sliding_window_spec_witness :
    SegsWF demoSegs ∧
    slwinBefore 1 1 (flattenSegs demoSegs) =
      if msgCount demoSegs ≤ 1 + 1 then flattenSegs demoSegs
      else flattenSegs (windowSegs (slwinKeep 1 1 (msgCount demoSegs)) demoSegs 0) :=
  ⟨by decide, sliding_window_spec 1 1 demoSegs (by decide)⟩

end AIRouter
